import Mathlib

/-!
# Verification of the rotation-cleanup and retargeting engine

Shallow embedding of the quaternion pipeline of `src/frankmocap/pkl_to_npz.py`
(continuity fixing, outlier rejection, angular-velocity limiting, rotation
clamping, temporal smoothing) and the cross-skeleton retargeter of
`src/npz_to_glb.py` (bone mapping and per-joint retarget formulas), together
with proofs of the specified properties.

Quaternions are modelled as 4-tuples `[w, x, y, z]` over a linear ordered
field (instantiated at `ℚ` for executable witnesses and at `ℝ` for the
stages that use trigonometric functions).  A rotation track is stored
joint-major: a list of per-joint frame lists, mirroring the per-joint loops
of the source; `n_joints` is the outer length and `n_frames` the (uniform)
inner length, matching the `(N, J, 4)` array shape of the source.
-/

/-- A quaternion `[w, x, y, z]` over a field, as stored in the NPZ arrays. -/
structure Quat (α : Type) where
  w : α
  x : α
  y : α
  z : α
deriving DecidableEq, Repr

namespace Quat

variable {α : Type} [LinearOrderedField α]

/-- Componentwise dot product, `np.dot(q1, q2)` on the 4-vectors. -/
def dotQ (a b : Quat α) : α := a.w * b.w + a.x * b.x + a.y * b.y + a.z * b.z

/-- Negation `-q`, `quats[i, j] *= -1` in the source. -/
def negQ (a : Quat α) : Quat α := ⟨-a.w, -a.x, -a.y, -a.z⟩

/-- Componentwise sum of two quaternions as 4-vectors. -/
def addQ (a b : Quat α) : Quat α := ⟨a.w + b.w, a.x + b.x, a.y + b.y, a.z + b.z⟩

/-- Componentwise difference of two quaternions as 4-vectors. -/
def subQ (a b : Quat α) : Quat α := ⟨a.w - b.w, a.x - b.x, a.y - b.y, a.z - b.z⟩

/-- Scalar multiple of a quaternion as a 4-vector. -/
def smulQ (k : α) (a : Quat α) : Quat α := ⟨k * a.w, k * a.x, k * a.y, k * a.z⟩

/-- Squared Euclidean norm of the 4-vector. -/
def normSq (a : Quat α) : α := dotQ a a

/-- Hamilton product, the `@` composition of `mathutils.Quaternion`. -/
def qmul (a b : Quat α) : Quat α :=
  ⟨a.w * b.w - a.x * b.x - a.y * b.y - a.z * b.z,
   a.w * b.x + a.x * b.w + a.y * b.z - a.z * b.y,
   a.w * b.y - a.x * b.z + a.y * b.w + a.z * b.x,
   a.w * b.z + a.x * b.y - a.y * b.x + a.z * b.w⟩

/-- Quaternion conjugate. -/
def qconj (a : Quat α) : Quat α := ⟨a.w, -a.x, -a.y, -a.z⟩

/-- Quaternion inverse, `mathutils.Quaternion.inverted()`:
conjugate divided by the squared norm. -/
def qinv (a : Quat α) : Quat α := smulQ (1 / normSq a) (qconj a)

theorem dotQ_comm (a b : Quat α) : dotQ a b = dotQ b a := by
  simp only [dotQ]; ring

theorem dotQ_negQ_right (a b : Quat α) : dotQ a (negQ b) = -dotQ a b := by
  simp only [dotQ, negQ]; ring

theorem dotQ_addQ_right (a b c : Quat α) :
    dotQ a (addQ b c) = dotQ a b + dotQ a c := by
  simp only [dotQ, addQ]; ring

theorem dotQ_smulQ_right (k : α) (a b : Quat α) :
    dotQ a (smulQ k b) = k * dotQ a b := by
  simp only [dotQ, smulQ]; ring

theorem normSq_negQ (a : Quat α) : normSq (negQ a) = normSq a := by
  simp only [normSq, dotQ, negQ]; ring

theorem normSq_smulQ (k : α) (a : Quat α) : normSq (smulQ k a) = k ^ 2 * normSq a := by
  simp only [normSq, dotQ, smulQ]; ring

theorem normSq_addQ (a b : Quat α) :
    normSq (addQ a b) = normSq a + 2 * dotQ a b + normSq b := by
  simp only [normSq, dotQ, addQ]; ring

theorem smulQ_one (a : Quat α) : smulQ 1 a = a := by
  simp [smulQ]

/-- Cauchy-Schwarz for the 4-vector dot product. -/
theorem dotQ_sq_le (a b : Quat α) : dotQ a b ^ 2 ≤ normSq a * normSq b := by
  simp only [dotQ, normSq]
  nlinarith [sq_nonneg (a.w * b.x - a.x * b.w), sq_nonneg (a.w * b.y - a.y * b.w),
    sq_nonneg (a.w * b.z - a.z * b.w), sq_nonneg (a.x * b.y - a.y * b.x),
    sq_nonneg (a.x * b.z - a.z * b.x), sq_nonneg (a.y * b.z - a.z * b.y)]

/-- On unit quaternions the dot product lies in `[-1, 1]`. -/
theorem abs_dotQ_le_one {a b : Quat α} (ha : normSq a = 1) (hb : normSq b = 1) :
    |dotQ a b| ≤ 1 := by
  have h := dotQ_sq_le a b
  rw [ha, hb, mul_one] at h
  exact (sq_le_one_iff_abs_le_one (a := dotQ a b)).mp h

end Quat

open Quat

/-- Number of frames of a joint-major track: the length of the first joint's
frame list (`quats.shape[0]` for the rectangular source arrays). -/
def nFrames {α : Type} (t : List (List (Quat α))) : Nat :=
  match t with
  | [] => 0
  | qs :: _ => qs.length

/-- Map a per-joint transform carrying the joint index, starting at `k`
(the per-joint loops `for j in range(n_joints)` of the source). -/
def mapJoints {α : Type} (f : Nat → List (Quat α) → List (Quat α)) :
    Nat → List (List (Quat α)) → List (List (Quat α))
  | _, [] => []
  | k, qs :: rest => f k qs :: mapJoints f (k + 1) rest

theorem mapJoints_length {α : Type} (f : Nat → List (Quat α) → List (Quat α)) :
    ∀ (k : Nat) (t : List (List (Quat α))), (mapJoints f k t).length = t.length := by
  intro k t
  induction t generalizing k with
  | nil => rfl
  | cons qs rest ih => simp [mapJoints, ih]

theorem mapJoints_getD {α : Type} (f : Nat → List (Quat α) → List (Quat α)) :
    ∀ (k j : Nat) (t : List (List (Quat α))), j < t.length →
      (mapJoints f k t).getD j [] = f (k + j) (t.getD j []) := by
  intro k j t
  induction t generalizing k j with
  | nil => intro h; simp at h
  | cons qs rest ih =>
    intro h
    cases j with
    | zero => simp [mapJoints]
    | succ j =>
      have hj : j < rest.length := by simpa using h
      have := ih (k + 1) j hj
      simpa [mapJoints, Nat.add_assoc, Nat.add_comm 1 j] using this

theorem mapJoints_comp {α : Type} (f g : Nat → List (Quat α) → List (Quat α)) :
    ∀ (k : Nat) (t : List (List (Quat α))),
      mapJoints f k (mapJoints g k t) = mapJoints (fun j qs => f j (g j qs)) k t := by
  intro k t
  induction t generalizing k with
  | nil => rfl
  | cons qs rest ih => simp [mapJoints, ih]

/-! ## Quaternion Continuity Fixer — `fix_quaternion_signs`

For each joint, walk frames `1..N-1`; whenever `np.dot(quats[i], quats[i-1])`
is negative, negate `quats[i]` in place.  The fold below carries the
already-fixed previous frame, exactly as the in-place loop does. -/

/-- One joint's sign-fixing walk: `prev` is the already-fixed previous frame. -/
def fixSignsFrom {α : Type} [LinearOrderedField α] :
    Quat α → List (Quat α) → List (Quat α)
  | _, [] => []
  | prev, q :: rest =>
      let q' := if dotQ q prev < 0 then negQ q else q
      q' :: fixSignsFrom q' rest

/-- The Continuity Fixer on one joint's frame list (frame 0 is never touched). -/
def fixJoint {α : Type} [LinearOrderedField α] (qs : List (Quat α)) : List (Quat α) :=
  match qs with
  | [] => []
  | q0 :: rest => q0 :: fixSignsFrom q0 rest

/-- The Continuity Fixer `fix_quaternion_signs` on a joint-major track. -/
def fix_quaternion_signs {α : Type} [LinearOrderedField α]
    (t : List (List (Quat α))) : List (List (Quat α)) :=
  t.map fixJoint

theorem fixSignsFrom_chain {α : Type} [LinearOrderedField α] :
    ∀ (rest : List (Quat α)) (prev : Quat α),
      List.Chain' (fun a b => 0 ≤ dotQ b a) (prev :: fixSignsFrom prev rest) := by
  intro rest
  induction rest with
  | nil => intro prev; simp [fixSignsFrom]
  | cons q rest ih =>
    intro prev
    simp only [fixSignsFrom]
    refine List.Chain'.cons ?_ (ih _)
    by_cases h : dotQ q prev < 0
    · simp only [if_pos h]
      have : dotQ (negQ q) prev = -dotQ q prev := by
        rw [dotQ_comm, dotQ_negQ_right, dotQ_comm]
      rw [this]; linarith
    · simp only [if_neg h]; linarith [not_lt.mp h]

theorem fixJoint_chain {α : Type} [LinearOrderedField α] (qs : List (Quat α)) :
    List.Chain' (fun a b => 0 ≤ dotQ b a) (fixJoint qs) := by
  cases qs with
  | nil => simp [fixJoint]
  | cons q0 rest => exact fixSignsFrom_chain rest q0

/-- C2: after the Quaternion Continuity Fixer runs on any rotation track, for
every joint and every frame index `i > 0`, the dot product of consecutive
quaternions `dot(q[i], q[i-1])` is nonnegative (hence in particular
`≥ -1e-9`): no residual sign discontinuities remain. -/
theorem C2_continuity_fixer_no_residual_sign_flips {α : Type} [LinearOrderedField α]
    (t : List (List (Quat α))) :
    ∀ qs ∈ fix_quaternion_signs t,
      List.Chain' (fun prev cur => 0 ≤ dotQ cur prev) qs := by
  intro qs hqs
  rcases List.mem_map.mp hqs with ⟨orig, _, rfl⟩
  exact fixJoint_chain orig

/-! ## Cross-Skeleton Retargeter — `npz_to_glb.py`

The bone-name mapping `build_bone_mapping` (explicit renames, direct match,
finger-pattern match, skip set) and the per-joint retarget-formula choice of
`retarget_to_mixamo`: rest-local for wrist/finger indices with a parent rest
quaternion, conjugation otherwise.  The Blender rest quaternions computed by
`compute_rest_quats` are inputs here (maps from bone name to quaternion). -/

/-- Explicit rename table `_SMPL_TO_MIXAMO_RENAME`. -/
def smplToMixamoRename (n : String) : Option String :=
  if n = "Chest" then some "Spine1"
  else if n = "UpperChest" then some "Spine2"
  else none

/-- Finger base names `_FINGER_NAMES`. -/
def fingerNames : List String := ["Thumb", "Index", "Middle", "Ring", "Pinky"]

/-- Joints with no Mixamo equivalent, `_SKIP_JOINTS`. -/
def skipJoints : List String := ["Jaw", "LeftEye", "RightEye"]

/-- The triple loop over finger name, side and digit, in source order:
first combination whose SMPL-style name matches and whose Mixamo-style name
is a known bone wins. -/
def fingerMatch (mixamoBoneNames : List String) (name : String) : Option String :=
  (fingerNames.flatMap fun f =>
    (["Left", "Right"].flatMap fun s =>
      (["1", "2", "3"].map fun d => (s, f, d)))).findSome?
    fun sfd =>
      if name = sfd.1 ++ sfd.2.1 ++ sfd.2.2 ∧
          (sfd.1 ++ "Hand" ++ sfd.2.1 ++ sfd.2.2) ∈ mixamoBoneNames then
        some (sfd.1 ++ "Hand" ++ sfd.2.1 ++ sfd.2.2)
      else none

/-- Resolution of one SMPL joint name against the target bone set: skip set,
then rename table (falling through when the renamed bone is absent), then
direct match, then the finger pattern. -/
def mapJointName (mixamoBoneNames : List String) (name : String) : Option String :=
  if name ∈ skipJoints then none
  else
    let renamed :=
      match smplToMixamoRename name with
      | some m => if m ∈ mixamoBoneNames then some m else none
      | none => none
    match renamed with
    | some m => some m
    | none =>
        if name ∈ mixamoBoneNames then some name
        else fingerMatch mixamoBoneNames name

/-- The bone mapping `build_bone_mapping`: SMPL joint index to Mixamo bone
name; unmatched joints are dropped. -/
def build_bone_mapping (smplJointNames mixamoBoneNames : List String) :
    List (Nat × String) :=
  smplJointNames.enum.filterMap fun p =>
    (mapJointName mixamoBoneNames p.2).map fun m => (p.1, m)

/-- The set `_HAND_INDICES = {20, 21} | set(range(25, 55))`. -/
def isHandIndex (idx : Nat) : Bool :=
  (idx == 20 || idx == 21) || (decide (25 ≤ idx) && decide (idx ≤ 54))

theorem isHandIndex_iff (idx : Nat) :
    isHandIndex idx = true ↔ (20 ≤ idx ∧ idx ≤ 21) ∨ (25 ≤ idx ∧ idx ≤ 54) := by
  simp only [isHandIndex, Bool.or_eq_true, Bool.and_eq_true, beq_iff_eq,
    decide_eq_true_eq]
  omega

/-- The per-frame retarget formula of `retarget_to_mixamo`: rest-local
`bone_rest⁻¹ * parent_rest * source_q` when `idx` is a hand index and the
bone has a parent rest quaternion, conjugation `bone_rest⁻¹ * source_q *
bone_rest` otherwise. -/
def poseQuat {α : Type} [LinearOrderedField α] (br : Quat α) (pr : Option (Quat α))
    (idx : Nat) (q : Quat α) : Quat α :=
  match pr with
  | some p =>
      if isHandIndex idx then qmul (qmul (qinv br) p) q
      else qmul (qmul (qinv br) q) br
  | none => qmul (qmul (qinv br) q) br

/-- One mapped bone's full animation channel: the formula applied per frame. -/
def retargetChannel {α : Type} [LinearOrderedField α] (br : Quat α)
    (pr : Option (Quat α)) (idx : Nat) (frames : List (Quat α)) : List (Quat α) :=
  frames.map (poseQuat br pr idx)

/-- The retarget entry point of `npz_to_glb.py` as far as the rotation
channels are concerned: builds the bone mapping, skips bones without a rest
quaternion, and fills every mapped channel.  The source performs no check on
an empty mapping, so the result is always `ok`. -/
def retarget_to_mixamo {α : Type} [LinearOrderedField α]
    (smplJointNames mixamoBoneNames : List String)
    (boneRest parentRest : String → Option (Quat α))
    (rotations : List (List (Quat α))) :
    Except String (List (Nat × String × List (Quat α))) :=
  let boneMap := build_bone_mapping smplJointNames mixamoBoneNames
  Except.ok (boneMap.filterMap fun p =>
    match boneRest p.2 with
    | none => none
    | some br => some (p.1, p.2, retargetChannel br (parentRest p.2) p.1 (rotations.getD p.1 [])))

/-- The zero-mapping guard of `retarget_and_export.py` (`main`, the
`if not bone_mapping_result` check): an empty mapping raises a fatal error. -/
def retargetAndExportGuard (boneMappingResult : List (String × String)) :
    Except String (List (String × String)) :=
  if boneMappingResult.isEmpty then
    Except.error "No bones could be mapped between source and target"
  else Except.ok boneMappingResult

/-- C1: for every mapped source joint and every frame, the retargeter applies
the rest-local formula `bone_rest⁻¹ * parent_rest * source_q` exactly when
the source joint index is a wrist (20, 21) or finger (25-54) and the target
bone has a parent rest quaternion, and the conjugation formula
`bone_rest⁻¹ * source_q * bone_rest` for every other mapped joint, including
a wrist/finger bone with no parent. -/
theorem C1_retarget_formula_choice {α : Type} [LinearOrderedField α]
    (br p q : Quat α) (idx : Nat) (frames : List (Quat α)) :
    (((20 ≤ idx ∧ idx ≤ 21) ∨ (25 ≤ idx ∧ idx ≤ 54)) →
        poseQuat br (some p) idx q = qmul (qmul (qinv br) p) q) ∧
    (¬((20 ≤ idx ∧ idx ≤ 21) ∨ (25 ≤ idx ∧ idx ≤ 54)) →
        poseQuat br (some p) idx q = qmul (qmul (qinv br) q) br) ∧
    poseQuat br none idx q = qmul (qmul (qinv br) q) br ∧
    retargetChannel br (some p) idx frames = frames.map (poseQuat br (some p) idx) := by
  refine ⟨fun h => ?_, fun h => ?_, rfl, rfl⟩
  · rw [poseQuat, if_pos ((isHandIndex_iff idx).mpr h)]
  · rw [poseQuat, if_neg (fun hb => h ((isHandIndex_iff idx).mp hb))]

/-- Witness for C1 at the left wrist index 20 over `ℚ`. -/
theorem C1_retarget_formula_choice_witness :
    ((20 ≤ 20 ∧ 20 ≤ 21) ∨ (25 ≤ 20 ∧ 20 ≤ 54)) ∧
    poseQuat (α := ℚ) ⟨1, 0, 0, 0⟩ (some ⟨0, 1, 0, 0⟩) 20 ⟨0, 0, 1, 0⟩ =
      qmul (qmul (qinv ⟨1, 0, 0, 0⟩) ⟨0, 1, 0, 0⟩) ⟨0, 0, 1, 0⟩ :=
  ⟨by decide,
   (C1_retarget_formula_choice (α := ℚ) ⟨1, 0, 0, 0⟩ ⟨0, 1, 0, 0⟩ ⟨0, 0, 1, 0⟩ 20 []).1
     (by decide)⟩

/-- C9 counterexample: a (source, target) pair mapping zero joints for which
`retarget_to_mixamo` does not fail — it proceeds and returns an (empty)
animation instead of a fatal error. -/
theorem C9_counterexample_zero_mapping_no_error :
    build_bone_mapping ["Hips"] [] = [] ∧
    retarget_to_mixamo (α := ℚ) ["Hips"] [] (fun _ => none) (fun _ => none) [[]] =
      Except.ok [] := by
  exact ⟨by decide, rfl⟩

/-- C9 amended: only the standalone `retarget_and_export.py` script fails
fatally on a zero-joint mapping; the NPZ-to-GLB retargeter performs no such
check and proceeds with an empty channel list. -/
theorem C9_amended_zero_mapping_behavior {α : Type} [LinearOrderedField α]
    (smplJointNames mixamoBoneNames : List String)
    (boneRest parentRest : String → Option (Quat α))
    (rotations : List (List (Quat α)))
    (h : build_bone_mapping smplJointNames mixamoBoneNames = []) :
    retarget_to_mixamo smplJointNames mixamoBoneNames boneRest parentRest rotations =
      Except.ok [] ∧
    retargetAndExportGuard [] =
      Except.error "No bones could be mapped between source and target" := by
  constructor
  · rw [retarget_to_mixamo]
    simp only [h, List.filterMap_nil]
  · rfl

/-- Witness for C9's amended theorem at a concrete empty target skeleton. -/
theorem C9_amended_zero_mapping_behavior_witness :
    build_bone_mapping ["Hips"] [] = [] ∧
    (retarget_to_mixamo (α := ℚ) ["Hips"] [] (fun _ => none) (fun _ => none) [[]] =
        Except.ok [] ∧
      retargetAndExportGuard [] =
        Except.error "No bones could be mapped between source and target") :=
  ⟨by decide,
   C9_amended_zero_mapping_behavior (α := ℚ) ["Hips"] [] (fun _ => none) (fun _ => none)
     [[]] (by decide)⟩

/-! ## Rotation Clamp — `clamp_hand_rotations`

For wrist (20-21) and finger (25+) joints, each frame's rotation angle
`2 * arccos(clip(|w|, 0, 1))` is hard-limited to `max_angle_deg` (default
120 degrees) by replacing the quaternion with
`[cos(half), x * factor, y * factor, z * factor]` where
`factor = sin(half) / sin(angle / 2)`. -/

open Real in
/-- Degree-to-radian conversion `np.radians`. -/
noncomputable def radians (deg : ℝ) : ℝ := deg * π / 180

/-- The clip `np.clip(v, 0, 1)`. -/
noncomputable def clip01 (v : ℝ) : ℝ := min (max v 0) 1

theorem clip01_nonneg (v : ℝ) : 0 ≤ clip01 v :=
  le_min (le_max_right v 0) zero_le_one

theorem clip01_le_one (v : ℝ) : clip01 v ≤ 1 := min_le_right _ _

theorem clip01_of_mem {v : ℝ} (h0 : 0 ≤ v) (h1 : v ≤ 1) : clip01 v = v := by
  rw [clip01, max_eq_left h0, min_eq_left h1]

open Real in
/-- One quaternion's pass through the clamp loop body of
`clamp_hand_rotations`. -/
noncomputable def clamp_quat (maxAngleRad : ℝ) (q : Quat ℝ) : Quat ℝ :=
  if maxAngleRad < 2 * arccos (clip01 |q.w|) then
    if 1e-8 < sin (2 * arccos (clip01 |q.w|) / 2) then
      ⟨cos (maxAngleRad / 2),
       q.x * (sin (maxAngleRad / 2) / sin (2 * arccos (clip01 |q.w|) / 2)),
       q.y * (sin (maxAngleRad / 2) / sin (2 * arccos (clip01 |q.w|) / 2)),
       q.z * (sin (maxAngleRad / 2) / sin (2 * arccos (clip01 |q.w|) / 2))⟩
    else q
  else q

/-- Joint selection of the clamp: `list(range(20, 22)) + list(range(25,
n_joints))`; inside the per-joint map the index is always below `n_joints`. -/
def isClampJoint (j : Nat) : Bool :=
  (decide (20 ≤ j) && decide (j ≤ 21)) || decide (25 ≤ j)

/-- The Rotation Clamp `clamp_hand_rotations` on a joint-major track: a track
with at most 24 joints has no hands and is returned untouched. -/
noncomputable def clamp_hand_rotations (maxAngleDeg : ℝ)
    (t : List (List (Quat ℝ))) : List (List (Quat ℝ)) :=
  if t.length ≤ 24 then t
  else
    mapJoints
      (fun j qs => if isClampJoint j then qs.map (clamp_quat (radians maxAngleDeg)) else qs)
      0 t

theorem radians_120_div_two : radians 120 / 2 = Real.pi / 3 := by
  rw [radians]; ring

theorem radians_120_eq : radians 120 = 2 * (Real.pi / 3) := by
  rw [radians]; ring

theorem arccos_one_half : Real.arccos (1 / 2) = Real.pi / 3 := by
  rw [← Real.cos_pi_div_three]
  exact Real.arccos_cos (by positivity) (by linarith [Real.pi_pos])

theorem pi_div_three_lt_arccos {c : ℝ} (hc0 : -1 ≤ c) (hc : c < 1 / 2) :
    Real.pi / 3 < Real.arccos c := by
  rw [← arccos_one_half]
  exact Real.strictAntiOn_arccos ⟨hc0, by linarith⟩ ⟨by norm_num, by norm_num⟩ hc

theorem arccos_le_pi_div_three {c : ℝ} (h : 1 / 2 ≤ c) (hc1 : c ≤ 1) :
    Real.arccos c ≤ Real.pi / 3 := by
  rw [← arccos_one_half]
  exact Real.strictAntiOn_arccos.antitoneOn ⟨by norm_num, by norm_num⟩
    ⟨by linarith, hc1⟩ h

/-- The guard `old_sin > 1e-8` always passes in the overflow branch of the
120-degree clamp: there `sin(angle / 2) = sqrt(1 - c^2) > sqrt(3) / 2`. -/
theorem old_sin_large {c : ℝ} (hc0 : 0 ≤ c) (hc : c < 1 / 2) :
    (1e-8 : ℝ) < Real.sin (2 * Real.arccos c / 2) := by
  have h2 : 2 * Real.arccos c / 2 = Real.arccos c := by ring
  rw [h2, Real.sin_arccos]
  have hsq : (3 : ℝ) / 4 < 1 - c ^ 2 := by nlinarith
  have : (1e-8 : ℝ) < Real.sqrt (3 / 4) := by
    rw [show (1e-8 : ℝ) = |1e-8| by rw [abs_of_nonneg]; norm_num, ← Real.sqrt_sq_eq_abs]
    exact Real.sqrt_lt_sqrt (by positivity) (by norm_num)
  calc (1e-8 : ℝ) < Real.sqrt (3 / 4) := this
    _ ≤ Real.sqrt (1 - c ^ 2) := Real.sqrt_le_sqrt (by linarith)

/-- In the overflow branch the input's `clip(|w|, 0, 1)` is below `1/2`. -/
theorem clip_lt_half_of_overflow {q : Quat ℝ}
    (h : radians 120 < 2 * Real.arccos (clip01 |q.w|)) :
    clip01 |q.w| < 1 / 2 := by
  by_contra hc
  push_neg at hc
  have := arccos_le_pi_div_three hc (clip01_le_one _)
  rw [radians_120_eq] at h
  linarith

/-- Fully evaluated overflow branch of the 120-degree clamp. -/
theorem clamp_quat_overflow {q : Quat ℝ}
    (h : radians 120 < 2 * Real.arccos (clip01 |q.w|)) :
    clamp_quat (radians 120) q =
      ⟨1 / 2,
       q.x * (Real.sin (Real.pi / 3) / Real.sin (Real.arccos (clip01 |q.w|))),
       q.y * (Real.sin (Real.pi / 3) / Real.sin (Real.arccos (clip01 |q.w|))),
       q.z * (Real.sin (Real.pi / 3) / Real.sin (Real.arccos (clip01 |q.w|)))⟩ := by
  have hclt := clip_lt_half_of_overflow h
  have hsin := old_sin_large (clip01_nonneg _) hclt
  have h2 : 2 * Real.arccos (clip01 |q.w|) / 2 = Real.arccos (clip01 |q.w|) := by ring
  rw [clamp_quat, if_pos h, if_pos hsin, radians_120_div_two, h2, Real.cos_pi_div_three]

/-- The clamp leaves a quaternion whose angle does not exceed the maximum
unchanged. -/
theorem clamp_quat_no_overflow {q : Quat ℝ}
    (h : ¬ radians 120 < 2 * Real.arccos (clip01 |q.w|)) :
    clamp_quat (radians 120) q = q := by
  rw [clamp_quat, if_neg h]

theorem clamp_quat_idem (q : Quat ℝ) :
    clamp_quat (radians 120) (clamp_quat (radians 120) q) = clamp_quat (radians 120) q := by
  by_cases h : radians 120 < 2 * Real.arccos (clip01 |q.w|)
  · have hw : (clamp_quat (radians 120) q).w = 1 / 2 := by rw [clamp_quat_overflow h]
    apply clamp_quat_no_overflow
    rw [hw, abs_of_nonneg (by norm_num : (0 : ℝ) ≤ 1 / 2),
      clip01_of_mem (by norm_num) (by norm_num), arccos_one_half, ← radians_120_eq]
    exact lt_irrefl _
  · rw [clamp_quat_no_overflow h, clamp_quat_no_overflow h]

/-- C5: the Rotation Clamp is idempotent — applying `clamp_hand_rotations` a
second time to its own output changes no value, for every input track. -/
theorem C5_rotation_clamp_idempotent (t : List (List (Quat ℝ))) :
    clamp_hand_rotations 120 (clamp_hand_rotations 120 t) = clamp_hand_rotations 120 t := by
  by_cases hlen : t.length ≤ 24
  · have h1 : clamp_hand_rotations 120 t = t := by
      rw [clamp_hand_rotations, if_pos hlen]
    rw [h1, h1]
  · set f : Nat → List (Quat ℝ) → List (Quat ℝ) :=
      fun j qs => if isClampJoint j then qs.map (clamp_quat (radians 120)) else qs with hf
    have h1 : clamp_hand_rotations 120 t = mapJoints f 0 t := by
      rw [clamp_hand_rotations, if_neg hlen]
    have hlen2 : ¬ (mapJoints f 0 t).length ≤ 24 := by
      rw [mapJoints_length]; exact hlen
    rw [h1, clamp_hand_rotations, if_neg hlen2, mapJoints_comp]
    have hff : (fun j qs => f j (f j qs)) = f := by
      funext j qs
      by_cases hj : isClampJoint j
      · simp only [hf, if_pos hj, List.map_map]
        congr 1
        funext q
        exact clamp_quat_idem q
      · simp only [hf, if_neg hj]
    rw [hff]

/-- The overflow condition at the concrete clamp input `w = -1/4`. -/
theorem quarter_overflow : radians 120 < 2 * Real.arccos (clip01 |(-(1 / 4) : ℝ)|) := by
  have hc : clip01 |(-(1 / 4) : ℝ)| = 1 / 4 := by
    rw [abs_neg, abs_of_nonneg (by norm_num : (0 : ℝ) ≤ 1 / 4)]
    exact clip01_of_mem (by norm_num) (by norm_num)
  rw [hc, radians_120_eq]
  have := pi_div_three_lt_arccos (by norm_num : (-1 : ℝ) ≤ 1 / 4) (by norm_num)
  linarith

/-- C4 counterexample: the clamp does not preserve the sign of `w`.  The
wrist quaternion `[-1/4, 1, 0, 0]` has angle `2 * arccos(1/4) > 120` degrees
and a negative `w`, yet the clamp outputs `w = cos(60 degrees) = 1/2 > 0`. -/
theorem C4_counterexample_w_sign_not_preserved :
    (clamp_quat (radians 120) ⟨-(1 / 4), 1, 0, 0⟩).w = 1 / 2 ∧
    (Quat.mk (α := ℝ) (-(1 / 4)) 1 0 0).w < 0 ∧ ¬ ((1 : ℝ) / 2 < 0) := by
  refine ⟨?_, by norm_num, by norm_num⟩
  rw [clamp_quat_overflow (q := ⟨-(1 / 4), 1, 0, 0⟩) quarter_overflow]

/-- C4 amended: a wrist/finger quaternion whose angle
`2 * arccos(clip(|w|, 0, 1))` exceeds 120 degrees is replaced by one whose
angle equals 120 degrees exactly and whose vector part is a positive multiple
of the input's vector part, with `w` component `cos(60 degrees) = 1/2`
regardless of the input `w`'s sign; a quaternion whose angle does not exceed
the maximum is left unchanged. -/
theorem C4_amended_rotation_clamp (q : Quat ℝ) :
    (2 * Real.arccos (clip01 |q.w|) ≤ radians 120 → clamp_quat (radians 120) q = q) ∧
    (radians 120 < 2 * Real.arccos (clip01 |q.w|) →
      (clamp_quat (radians 120) q).w = 1 / 2 ∧
      2 * Real.arccos (clip01 |(clamp_quat (radians 120) q).w|) = radians 120 ∧
      ∃ k : ℝ, 0 < k ∧
        (clamp_quat (radians 120) q).x = k * q.x ∧
        (clamp_quat (radians 120) q).y = k * q.y ∧
        (clamp_quat (radians 120) q).z = k * q.z) := by
  constructor
  · intro h
    exact clamp_quat_no_overflow (not_lt.mpr h)
  · intro h
    have ho := clamp_quat_overflow h
    have hw : (clamp_quat (radians 120) q).w = 1 / 2 := by rw [ho]
    refine ⟨hw, ?_, ?_⟩
    · rw [hw, abs_of_nonneg (by norm_num : (0 : ℝ) ≤ 1 / 2),
        clip01_of_mem (by norm_num) (by norm_num), arccos_one_half, ← radians_120_eq]
    · refine ⟨Real.sin (Real.pi / 3) / Real.sin (Real.arccos (clip01 |q.w|)), ?_, ?_, ?_, ?_⟩
      · apply div_pos
        · rw [Real.sin_pi_div_three]; positivity
        · have hs := old_sin_large (clip01_nonneg _) (clip_lt_half_of_overflow h)
          have h2 : 2 * Real.arccos (clip01 |q.w|) / 2 = Real.arccos (clip01 |q.w|) := by
            ring
          rw [h2] at hs
          linarith
      · rw [ho]; exact mul_comm _ _
      · rw [ho]; exact mul_comm _ _
      · rw [ho]; exact mul_comm _ _

/-- Witness for C4's amended theorem at the overflowing input
`[-1/4, 1, 0, 0]`. -/
theorem C4_amended_rotation_clamp_witness :
    radians 120 < 2 * Real.arccos (clip01 |(Quat.mk (α := ℝ) (-(1 / 4)) 1 0 0).w|) ∧
    ((clamp_quat (radians 120) ⟨-(1 / 4), 1, 0, 0⟩).w = 1 / 2 ∧
      2 * Real.arccos (clip01 |(clamp_quat (radians 120) ⟨-(1 / 4), 1, 0, 0⟩).w|) =
        radians 120 ∧
      ∃ k : ℝ, 0 < k ∧
        (clamp_quat (radians 120) ⟨-(1 / 4), 1, 0, 0⟩).x = k * (1 : ℝ) ∧
        (clamp_quat (radians 120) ⟨-(1 / 4), 1, 0, 0⟩).y = k * (0 : ℝ) ∧
        (clamp_quat (radians 120) ⟨-(1 / 4), 1, 0, 0⟩).z = k * (0 : ℝ)) :=
  ⟨quarter_overflow, (C4_amended_rotation_clamp ⟨-(1 / 4), 1, 0, 0⟩).2 quarter_overflow⟩

/-! ## Temporal Smoother — `smooth_quaternions`

Savitzky-Golay smoothing per joint and per quaternion channel, followed by
renormalization.  The scipy filter itself is an external collaborator and is
passed in as a function `sg window order series`; the window selection, the
clamp to the largest odd number below the frame count, the early return for
short tracks and the renormalization are the source's own logic, embedded
here. -/

/-- The window clamp `n_frames if n_frames % 2 == 1 else n_frames - 1`. -/
def largestOdd (n : Nat) : Nat := if n % 2 = 1 then n else n - 1

/-- Reassemble per-channel series into quaternions. -/
def zip4 : List ℝ → List ℝ → List ℝ → List ℝ → List (Quat ℝ)
  | w :: ws, x :: xs, y :: ys, z :: zs => ⟨w, x, y, z⟩ :: zip4 ws xs ys zs
  | _, _, _, _ => []

/-- Per-frame renormalization `smoothed[:, j] /= norms`. -/
noncomputable def renormQuat (q : Quat ℝ) : Quat ℝ :=
  smulQ (1 / Real.sqrt (normSq q)) q

/-- One joint's smoothing: each of the four channels filtered, then every
frame renormalized to unit length. -/
noncomputable def smoothJoint (sg : Nat → Nat → List ℝ → List ℝ) (w order : Nat)
    (qs : List (Quat ℝ)) : List (Quat ℝ) :=
  (zip4 (sg w order (qs.map Quat.w)) (sg w order (qs.map Quat.x))
    (sg w order (qs.map Quat.y)) (sg w order (qs.map Quat.z))).map renormQuat

/-- The Temporal Smoother `smooth_quaternions`: early return when the track
is shorter than the body window; per joint, hand joints (`j >= 20`) use the
wider window, the window is clamped to the largest odd number at most the
frame count, and joints whose clamped window is below 3 are left unsmoothed. -/
noncomputable def smooth_quaternions (sg : Nat → Nat → List ℝ → List ℝ)
    (window order handWindow : Nat) (t : List (List (Quat ℝ))) :
    List (List (Quat ℝ)) :=
  if nFrames t < window then t
  else
    mapJoints
      (fun j qs =>
        if min (if 20 ≤ j then handWindow else window) (largestOdd (nFrames t)) < 3 then qs
        else
          smoothJoint sg
            (min (if 20 ≤ j then handWindow else window) (largestOdd (nFrames t))) order qs)
      0 t

/-- The identity filter, a legitimate instantiation of the abstract
Savitzky-Golay collaborator (exact for short windows on low-order data). -/
def sgId : Nat → Nat → List ℝ → List ℝ := fun _ _ xs => xs

/-- C7 counterexample: a track with 4 frames (at least 3) is returned whole
by the smoother — no joint is smoothed and nothing is renormalized, so the
non-unit entries survive, contradicting the claim that every joint of a
track with at least 3 frames is smoothed and renormalized to unit length. -/
theorem C7_counterexample_short_track_not_smoothed :
    nFrames [List.replicate 4 (Quat.mk (α := ℝ) 2 0 0 0)] = 4 ∧
    3 ≤ nFrames [List.replicate 4 (Quat.mk (α := ℝ) 2 0 0 0)] ∧
    smooth_quaternions sgId 5 2 11 [List.replicate 4 (Quat.mk (α := ℝ) 2 0 0 0)] =
      [List.replicate 4 (Quat.mk (α := ℝ) 2 0 0 0)] ∧
    normSq (Quat.mk (α := ℝ) 2 0 0 0) ≠ 1 := by
  refine ⟨rfl, by norm_num [nFrames], ?_, ?_⟩
  · rw [smooth_quaternions, if_pos (by norm_num [nFrames])]
  · simp only [normSq, dotQ]
    norm_num

/-- C7 amended: with the default windows (5 body, 11 hand), a track with
fewer than 5 frames is returned entirely unsmoothed; for a track with at
least 5 frames every joint is smoothed with its class window clamped to the
largest odd number at most the frame count (that clamped window is always at
least 3, so the per-joint short-track guard never fires) and renormalized. -/
theorem C7_amended_smoother (sg : Nat → Nat → List ℝ → List ℝ)
    (t : List (List (Quat ℝ))) :
    (nFrames t < 5 → smooth_quaternions sg 5 2 11 t = t) ∧
    (5 ≤ nFrames t → ∀ j, j < t.length →
      3 ≤ min (if 20 ≤ j then 11 else 5) (largestOdd (nFrames t)) ∧
      (smooth_quaternions sg 5 2 11 t).getD j [] =
        smoothJoint sg (min (if 20 ≤ j then 11 else 5) (largestOdd (nFrames t))) 2
          (t.getD j [])) := by
  constructor
  · intro h
    rw [smooth_quaternions, if_pos h]
  · intro h j hj
    have hodd : 5 ≤ largestOdd (nFrames t) := by
      rw [largestOdd]
      by_cases hp : nFrames t % 2 = 1
      · rw [if_pos hp]; omega
      · rw [if_neg hp]; omega
    have hmin : 3 ≤ min (if 20 ≤ j then 11 else 5) (largestOdd (nFrames t)) := by
      by_cases h20 : 20 ≤ j
      · rw [if_pos h20]; omega
      · rw [if_neg h20]; omega
    refine ⟨hmin, ?_⟩
    rw [smooth_quaternions, if_neg (not_lt.mpr h)]
    rw [mapJoints_getD _ 0 j t hj]
    simp only [Nat.zero_add]
    rw [if_neg (not_lt.mpr hmin)]

/-- Witness for C7's amended theorem: a single-joint, 5-frame track. -/
theorem C7_amended_smoother_witness :
    5 ≤ nFrames [List.replicate 5 (Quat.mk (α := ℝ) 1 0 0 0)] ∧
    0 < [List.replicate 5 (Quat.mk (α := ℝ) 1 0 0 0)].length ∧
    (3 ≤ min (if 20 ≤ 0 then 11 else 5)
        (largestOdd (nFrames [List.replicate 5 (Quat.mk (α := ℝ) 1 0 0 0)])) ∧
      (smooth_quaternions sgId 5 2 11
          [List.replicate 5 (Quat.mk (α := ℝ) 1 0 0 0)]).getD 0 [] =
        smoothJoint sgId
          (min (if 20 ≤ 0 then 11 else 5)
            (largestOdd (nFrames [List.replicate 5 (Quat.mk (α := ℝ) 1 0 0 0)]))) 2
          ([List.replicate 5 (Quat.mk (α := ℝ) 1 0 0 0)].getD 0 [])) :=
  ⟨by norm_num [nFrames], by norm_num,
   (C7_amended_smoother sgId [List.replicate 5 (Quat.mk (α := ℝ) 1 0 0 0)]).2
     (by norm_num [nFrames]) 0 (by norm_num)⟩

/-! ## Angular-Velocity Limiter — `limit_angular_velocity`

For wrist joints 20 and 21, a forward pass replaces every frame whose
angular delta from the (already limited) previous frame exceeds the cap with
a partial SLERP limited to exactly the cap, then a backward pass applies the
same rule from the last frame to the first. -/

/-- The sign flip of `slerp_step`: `if dot < 0: q_to = -q_to`. -/
noncomputable def flipTo (qf qt : Quat ℝ) : Quat ℝ :=
  if dotQ qf qt < 0 then negQ qt else qt

/-- The clamped dot of `slerp_step`: after the sign flip the dot equals
`|dot|`, then `dot = min(dot, 1.0)`. -/
noncomputable def dClamp (qf qt : Quat ℝ) : ℝ := min |dotQ qf qt| 1

open Real in
/-- The partial interpolation of `slerp_step` (`t = max_angle / angle`,
`angle = 2 * arccos d`): near-linear branch above dot `0.9995`, otherwise the
standard SLERP expression. -/
noncomputable def slerpPartial (qf qt1 : Quat ℝ) (d maxAngle : ℝ) : Quat ℝ :=
  if 0.9995 < d then
    addQ qf (smulQ (maxAngle / (2 * arccos d)) (subQ qt1 qf))
  else
    smulQ (1 / sin (arccos d))
      (addQ (smulQ (sin ((1 - maxAngle / (2 * arccos d)) * arccos d)) qf)
        (smulQ (sin ((maxAngle / (2 * arccos d)) * arccos d)) qt1))

open Real in
/-- One `slerp_step` call: returns the (possibly sign-flipped) target when
the angular delta is within the cap, otherwise the normalized partial
interpolation together with the `was_limited` flag. -/
noncomputable def slerp_step (qf qt : Quat ℝ) (maxAngle : ℝ) : Quat ℝ × Bool :=
  if 2 * arccos (dClamp qf qt) ≤ maxAngle then (flipTo qf qt, false)
  else
    (smulQ (1 / Real.sqrt (normSq (slerpPartial qf (flipTo qf qt) (dClamp qf qt) maxAngle)))
      (slerpPartial qf (flipTo qf qt) (dClamp qf qt) maxAngle), true)

/-- The sequential frame walk shared by the two passes: each frame is
limited against the already-limited previous frame. -/
noncomputable def limitFwd (cap : ℝ) : Quat ℝ → List (Quat ℝ) → List (Quat ℝ)
  | _, [] => []
  | prev, q :: rest => (slerp_step prev q cap).1 :: limitFwd cap (slerp_step prev q cap).1 rest

/-- One directional pass (`for i in range(1, n_frames)`): frame 0 anchors
the walk and is never modified by the pass itself. -/
noncomputable def limitPass (cap : ℝ) (qs : List (Quat ℝ)) : List (Quat ℝ) :=
  match qs with
  | [] => []
  | q0 :: rest => q0 :: limitFwd cap q0 rest

/-- Forward pass followed by the backward pass (the backward loop from
`n_frames - 2` down to `-1`-exclusive is the forward walk on the reversed
list, anchored at the last frame). -/
noncomputable def limitJoint (cap : ℝ) (qs : List (Quat ℝ)) : List (Quat ℝ) :=
  (limitPass cap ((limitPass cap qs).reverse)).reverse

/-- The Angular-Velocity Limiter `limit_angular_velocity`: wrist joints 20
and 21 of tracks with hands (more than 24 joints) and at least 2 frames. -/
noncomputable def limit_angular_velocity (maxDegPerFrame : ℝ)
    (t : List (List (Quat ℝ))) : List (List (Quat ℝ)) :=
  if t.length ≤ 24 ∨ nFrames t < 2 then t
  else
    mapJoints
      (fun j qs => if j = 20 ∨ j = 21 then limitJoint (radians maxDegPerFrame) qs else qs)
      0 t

theorem radians_30 : radians 30 = Real.pi / 6 := by
  rw [radians]; ring

theorem radians_30_half : radians 30 / 2 = Real.pi / 12 := by
  rw [radians]; ring

theorem cos_pi_div_twelve_lt : Real.cos (Real.pi / 12) < 0.9995 := by
  have hpi4 := Real.pi_le_four
  have hpi3 := Real.pi_gt_three
  have h1 : |Real.pi / 12| ≤ 1 := by
    rw [abs_of_nonneg (by positivity)]
    linarith
  have hb := abs_le.mp (Real.cos_bound h1)
  have hx4 : |Real.pi / 12| ^ 4 ≤ (1 / 3 : ℝ) ^ 4 := by
    apply pow_le_pow_left₀ (abs_nonneg _)
    rw [abs_of_nonneg (by positivity)]
    linarith
  have hsq : (1 / 16 : ℝ) < (Real.pi / 12) ^ 2 := by nlinarith
  nlinarith [hb.2]

theorem Quat.dotQ_smulQ_left {α : Type} [LinearOrderedField α] (k : α) (a b : Quat α) :
    dotQ (smulQ k a) b = k * dotQ a b := by
  simp only [dotQ, smulQ]; ring

/-- The SLERP combination at partial parameter `pi/12` out of `theta` is a
unit quaternion whose dot with the start equals `cos(pi/12)`: the exact
geometric content of the limited branch of `slerp_step` at cap 30 degrees. -/
theorem slerp_combination_spec (qf qt1 : Quat ℝ) (θ : ℝ)
    (hf : normSq qf = 1) (ht1 : normSq qt1 = 1)
    (hdot : dotQ qf qt1 = Real.cos θ) (hsin : Real.sin θ ≠ 0) :
    normSq (smulQ (1 / Real.sin θ)
        (addQ (smulQ (Real.sin (θ - Real.pi / 12)) qf)
          (smulQ (Real.sin (Real.pi / 12)) qt1))) = 1 ∧
    dotQ qf (smulQ (1 / Real.sin θ)
        (addQ (smulQ (Real.sin (θ - Real.pi / 12)) qf)
          (smulQ (Real.sin (Real.pi / 12)) qt1))) = Real.cos (Real.pi / 12) := by
  have hff : dotQ qf qf = 1 := hf
  have hpy1 := Real.sin_sq_add_cos_sq (Real.pi / 12)
  have hpy2 := Real.sin_sq_add_cos_sq θ
  constructor
  · rw [normSq_smulQ, normSq_addQ, normSq_smulQ, normSq_smulQ, hf, ht1]
    rw [Quat.dotQ_smulQ_left, dotQ_smulQ_right, hdot]
    rw [Real.sin_sub]
    field_simp
    linear_combination (Real.sin θ ^ 2) * hpy1 - (Real.sin (Real.pi / 12) ^ 2) * hpy2
  · rw [dotQ_smulQ_right, dotQ_addQ_right, dotQ_smulQ_right, dotQ_smulQ_right, hff, hdot]
    rw [Real.sin_sub]
    field_simp
    ring

/-- Key step property: at the 30-degree cap, one `slerp_step` from a unit
quaternion to a unit quaternion yields a unit quaternion whose angular delta
from the start is at most the cap. -/
theorem slerp_step_spec (qf qt : Quat ℝ) (hf : normSq qf = 1) (ht : normSq qt = 1) :
    normSq (slerp_step qf qt (radians 30)).1 = 1 ∧
    2 * Real.arccos |dotQ qf (slerp_step qf qt (radians 30)).1| ≤ radians 30 := by
  have habs : |dotQ qf qt| ≤ 1 := abs_dotQ_le_one hf ht
  have hd : dClamp qf qt = |dotQ qf qt| := min_eq_left habs
  have hd0 : 0 ≤ dClamp qf qt := le_min (abs_nonneg _) zero_le_one
  have hd1 : dClamp qf qt ≤ 1 := min_le_right _ _
  have ht1 : normSq (flipTo qf qt) = 1 := by
    rw [flipTo]; split <;> simp [normSq_negQ, ht]
  have hdot1 : dotQ qf (flipTo qf qt) = dClamp qf qt := by
    rw [flipTo, hd]
    split
    · rename_i h; rw [dotQ_negQ_right, abs_of_neg h]
    · rename_i h; rw [abs_of_nonneg (not_lt.mp h)]
  by_cases hA : 2 * Real.arccos (dClamp qf qt) ≤ radians 30
  · rw [slerp_step, if_pos hA]
    refine ⟨ht1, ?_⟩
    rw [hdot1, abs_of_nonneg hd0]
    exact hA
  · rw [slerp_step, if_neg hA]
    push_neg at hA
    have hθgt : Real.pi / 12 < Real.arccos (dClamp qf qt) := by
      rw [radians_30] at hA; linarith
    have hθpos : 0 < Real.arccos (dClamp qf qt) := lt_trans (by positivity) hθgt
    have hθltpi : Real.arccos (dClamp qf qt) < Real.pi := by
      have := Real.arccos_le_pi_div_two.mpr hd0
      linarith [Real.pi_pos]
    have hsinθ : 0 < Real.sin (Real.arccos (dClamp qf qt)) :=
      Real.sin_pos_of_pos_of_lt_pi hθpos hθltpi
    have hcos : Real.cos (Real.arccos (dClamp qf qt)) = dClamp qf qt :=
      Real.cos_arccos (by linarith) hd1
    have hdlt : dClamp qf qt < Real.cos (Real.pi / 12) := by
      have hmono := Real.strictAntiOn_cos
        (a := Real.pi / 12) (b := Real.arccos (dClamp qf qt))
        ⟨by positivity, by linarith [Real.pi_pos]⟩
        ⟨le_of_lt hθpos, le_of_lt hθltpi⟩ hθgt
      rw [hcos] at hmono
      exact hmono
    have hno : ¬ ((0.9995 : ℝ) < dClamp qf qt) := by
      push_neg
      have := cos_pi_div_twelve_lt
      linarith
    have hθne : Real.arccos (dClamp qf qt) ≠ 0 := ne_of_gt hθpos
    have htθ : radians 30 / (2 * Real.arccos (dClamp qf qt)) * Real.arccos (dClamp qf qt)
        = Real.pi / 12 := by
      rw [radians_30]
      field_simp
      ring
    have h1tθ : (1 - radians 30 / (2 * Real.arccos (dClamp qf qt))) *
          Real.arccos (dClamp qf qt)
        = Real.arccos (dClamp qf qt) - Real.pi / 12 := by
      rw [sub_mul, one_mul, htθ]
    rw [slerpPartial, if_neg hno, h1tθ, htθ]
    have hcomb := slerp_combination_spec qf (flipTo qf qt) (Real.arccos (dClamp qf qt))
      hf ht1 (by rw [hdot1, hcos]) (ne_of_gt hsinθ)
    have hres : smulQ (1 / Real.sqrt (normSq (smulQ (1 / Real.sin (Real.arccos (dClamp qf qt)))
          (addQ (smulQ (Real.sin (Real.arccos (dClamp qf qt) - Real.pi / 12)) qf)
            (smulQ (Real.sin (Real.pi / 12)) (flipTo qf qt))))))
        (smulQ (1 / Real.sin (Real.arccos (dClamp qf qt)))
          (addQ (smulQ (Real.sin (Real.arccos (dClamp qf qt) - Real.pi / 12)) qf)
            (smulQ (Real.sin (Real.pi / 12)) (flipTo qf qt))))
        = smulQ (1 / Real.sin (Real.arccos (dClamp qf qt)))
          (addQ (smulQ (Real.sin (Real.arccos (dClamp qf qt) - Real.pi / 12)) qf)
            (smulQ (Real.sin (Real.pi / 12)) (flipTo qf qt))) := by
      rw [hcomb.1, Real.sqrt_one, div_one]
      exact smulQ_one _
    rw [hres]
    refine ⟨hcomb.1, ?_⟩
    rw [hcomb.2]
    rw [abs_of_nonneg (Real.cos_nonneg_of_mem_Icc
      ⟨by linarith [Real.pi_pos], by linarith [Real.pi_pos]⟩)]
    rw [Real.arccos_cos (by positivity) (by linarith [Real.pi_pos]), radians_30]
    linarith

theorem limitFwd_spec :
    ∀ (rest : List (Quat ℝ)) (prev : Quat ℝ), normSq prev = 1 →
      (∀ q ∈ rest, normSq q = 1) →
      (∀ q ∈ limitFwd (radians 30) prev rest, normSq q = 1) ∧
      List.Chain' (fun a b => 2 * Real.arccos |dotQ a b| ≤ radians 30)
        (prev :: limitFwd (radians 30) prev rest) := by
  intro rest
  induction rest with
  | nil =>
    intro prev _ _
    exact ⟨by simp [limitFwd], by simp [limitFwd]⟩
  | cons q rest ih =>
    intro prev hprev hall
    have hq : normSq q = 1 := hall q (by simp)
    have hrest : ∀ r ∈ rest, normSq r = 1 := fun r hr => hall r (by simp [hr])
    have hspec := slerp_step_spec prev q hprev hq
    obtain ⟨ih1, ih2⟩ := ih (slerp_step prev q (radians 30)).1 hspec.1 hrest
    simp only [limitFwd]
    refine ⟨?_, List.Chain'.cons hspec.2 ih2⟩
    intro r hr
    rcases List.mem_cons.mp hr with h | h
    · rw [h]; exact hspec.1
    · exact ih1 r h

theorem limitPass_spec (qs : List (Quat ℝ)) (h : ∀ q ∈ qs, normSq q = 1) :
    (∀ q ∈ limitPass (radians 30) qs, normSq q = 1) ∧
    List.Chain' (fun a b => 2 * Real.arccos |dotQ a b| ≤ radians 30)
      (limitPass (radians 30) qs) := by
  cases qs with
  | nil => exact ⟨by simp [limitPass], by simp [limitPass]⟩
  | cons q0 rest =>
    have h0 : normSq q0 = 1 := h q0 (by simp)
    obtain ⟨h1, h2⟩ := limitFwd_spec rest q0 h0 (fun r hr => h r (by simp [hr]))
    refine ⟨?_, h2⟩
    intro r hr
    rcases List.mem_cons.mp (by simpa [limitPass] using hr) with h' | h'
    · rw [h']; exact h0
    · exact h1 r h'

/-- After the forward and backward passes, every consecutive wrist frame
pair of a unit-quaternion joint track is within the 30-degree cap. -/
theorem limitJoint_chain (qs : List (Quat ℝ)) (h : ∀ q ∈ qs, normSq q = 1) :
    List.Chain' (fun a b => 2 * Real.arccos |dotQ a b| ≤ radians 30)
      (limitJoint (radians 30) qs) := by
  rw [limitJoint]
  have hp1 := limitPass_spec qs h
  have hrev : ∀ q ∈ (limitPass (radians 30) qs).reverse, normSq q = 1 :=
    fun q hq => hp1.1 q (List.mem_reverse.mp hq)
  have hp2 := limitPass_spec _ hrev
  rw [List.chain'_reverse]
  exact hp2.2.imp (fun a b hab => by rwa [dotQ_comm] at hab)

/-- C3: after the Angular-Velocity Limiter (forward then backward pass, cap
30 degrees per frame) runs on a unit-quaternion track with more than 24
joints and at least 2 frames, every consecutive frame pair of each wrist
joint (20 and 21) has angular delta `2 * arccos(|dot|)` at most the cap plus
`1e-6`. -/
theorem C3_angular_velocity_limiter (t : List (List (Quat ℝ)))
    (hJ : 24 < t.length) (hN : 2 ≤ nFrames t)
    (hu : ∀ qs ∈ t, ∀ q ∈ qs, normSq q = 1)
    (j : Nat) (hj : j = 20 ∨ j = 21) :
    List.Chain' (fun a b => 2 * Real.arccos |dotQ a b| ≤ radians 30 + 1e-6)
      ((limit_angular_velocity 30 t).getD j []) := by
  have hcond : ¬ (t.length ≤ 24 ∨ nFrames t < 2) := by omega
  rw [limit_angular_velocity, if_neg hcond]
  have hjlen : j < t.length := by omega
  rw [mapJoints_getD _ 0 j t hjlen]
  simp only [Nat.zero_add]
  rw [if_pos hj]
  have hmem : t.getD j [] ∈ t := by
    rw [List.getD_eq_getElem t [] hjlen]
    exact List.getElem_mem hjlen
  have hchain := limitJoint_chain (t.getD j []) (hu _ hmem)
  refine hchain.imp (fun a b hab => ?_)
  have : (0 : ℝ) ≤ 1e-6 := by norm_num
  linarith

/-- The identity quaternion, used as a concrete witness value. -/
def idQuatR : Quat ℝ := ⟨1, 0, 0, 0⟩

/-- Witness for C3 at a 25-joint, 2-frame identity track. -/
theorem C3_angular_velocity_limiter_witness :
    24 < (List.replicate 25 [idQuatR, idQuatR]).length ∧
    2 ≤ nFrames (List.replicate 25 [idQuatR, idQuatR]) ∧
    (∀ qs ∈ List.replicate 25 [idQuatR, idQuatR], ∀ q ∈ qs, normSq q = 1) ∧
    ((20 : Nat) = 20 ∨ (20 : Nat) = 21) ∧
    List.Chain' (fun a b => 2 * Real.arccos |dotQ a b| ≤ radians 30 + 1e-6)
      ((limit_angular_velocity 30 (List.replicate 25 [idQuatR, idQuatR])).getD 20 []) := by
  have h1 : 24 < (List.replicate 25 [idQuatR, idQuatR]).length := by
    rw [List.length_replicate]; norm_num
  have h2 : 2 ≤ nFrames (List.replicate 25 [idQuatR, idQuatR]) := by
    rw [show List.replicate 25 [idQuatR, idQuatR] =
      [idQuatR, idQuatR] :: List.replicate 24 [idQuatR, idQuatR] from rfl, nFrames]
    norm_num
  have h3 : ∀ qs ∈ List.replicate 25 [idQuatR, idQuatR], ∀ q ∈ qs, normSq q = 1 := by
    intro qs hqs q hq
    rw [List.eq_of_mem_replicate hqs] at hq
    rcases List.mem_cons.mp hq with h | h
    · rw [h, idQuatR]; norm_num [normSq, dotQ]
    · rw [List.mem_singleton.mp h, idQuatR]; norm_num [normSq, dotQ]
  exact ⟨h1, h2, h3, Or.inl rfl,
    C3_angular_velocity_limiter (List.replicate 25 [idQuatR, idQuatR]) h1 h2 h3 20
      (Or.inl rfl)⟩

/-! ## Outlier Rejector — `reject_hand_outliers`

Detection walks frames `1..N-1` of each wrist/finger joint; a frame whose
angular delta from the previous frame exceeds the threshold is added to the
outlier set in every branch of the forward-neighbor check.  The repair loop
then walks left from each outlier to find the nearest clean frame. -/

/-- The per-frame angular delta of the detector,
`2 * arccos(clip(|dot|, 0, 1))`. -/
noncomputable def deltaCode (a b : Quat ℝ) : ℝ := 2 * Real.arccos (clip01 |dotQ a b|)

/-- Frame access `quats[i, j]` on a joint's frame list. -/
def qAt (qs : List (Quat ℝ)) (i : Nat) : Quat ℝ := qs.getD i ⟨1, 0, 0, 0⟩

/-- The outlier set produced by the source's detection loop with the
forward-neighbor check: every branch (`fwd_delta < thr`, its negation, and
`i = n_frames - 1`) adds the current frame `i`. -/
def outliersWithForwardCheck (thr : ℝ) (qs : List (Quat ℝ)) : Set Nat :=
  {i | 1 ≤ i ∧ i < qs.length ∧ thr < deltaCode (qAt qs i) (qAt qs (i - 1)) ∧
    ((i < qs.length - 1 ∧ deltaCode (qAt qs (i + 1)) (qAt qs (i - 1)) < thr) ∨
     (i < qs.length - 1 ∧ ¬ deltaCode (qAt qs (i + 1)) (qAt qs (i - 1)) < thr) ∨
     ¬ i < qs.length - 1)}

/-- The plain threshold classifier: frames `i >= 1` whose delta from the
previous frame exceeds the threshold. -/
def outliersThreshold (thr : ℝ) (qs : List (Quat ℝ)) : Set Nat :=
  {i | 1 ≤ i ∧ i < qs.length ∧ thr < deltaCode (qAt qs i) (qAt qs (i - 1))}

/-- C6: the detector's forward-neighbor confirmation never changes the
classification — the outlier set with the forward check equals the plain
threshold set `{i >= 1 : delta(i, i-1) > thr}`, for every input track and
threshold. -/
theorem C6_forward_check_no_effect (thr : ℝ) (qs : List (Quat ℝ)) :
    outliersWithForwardCheck thr qs = outliersThreshold thr qs := by
  ext i
  simp only [outliersWithForwardCheck, outliersThreshold, Set.mem_setOf_eq]
  constructor
  · rintro ⟨h1, h2, h3, _⟩
    exact ⟨h1, h2, h3⟩
  · rintro ⟨h1, h2, h3⟩
    refine ⟨h1, h2, h3, ?_⟩
    by_cases hn : i < qs.length - 1
    · by_cases hf : deltaCode (qAt qs (i + 1)) (qAt qs (i - 1)) < thr
      · exact Or.inl ⟨hn, hf⟩
      · exact Or.inr (Or.inl ⟨hn, hf⟩)
    · exact Or.inr (Or.inr hn)

open Classical in
/-- The repair loop's backward search
`before = idx - 1; while before >= 0 and before in outliers: before -= 1`;
`none` plays the role of `before = -1`. -/
noncomputable def findCleanBefore (S : Set Nat) : Nat → Option Nat
  | 0 => if 0 ∈ S then none else some 0
  | i + 1 => if i + 1 ∈ S then findCleanBefore S i else some (i + 1)

theorem findCleanBefore_of_zero_clean (S : Set Nat) (h0 : 0 ∉ S) :
    ∀ i, ∃ b, findCleanBefore S i = some b ∧ b ∉ S ∧ b ≤ i := by
  intro i
  induction i with
  | zero =>
    refine ⟨0, ?_, h0, le_refl 0⟩
    rw [findCleanBefore, if_neg h0]
  | succ i ih =>
    by_cases h : i + 1 ∈ S
    · obtain ⟨b, hb, hbS, hbi⟩ := ih
      refine ⟨b, ?_, hbS, by omega⟩
      rw [findCleanBefore, if_pos h]
      exact hb
    · refine ⟨i + 1, ?_, h, le_refl _⟩
      rw [findCleanBefore, if_neg h]

/-- C10: frame 0 is never classified as an outlier (detection starts at
frame 1 and marks only the current frame), and consequently the backward
repair search of `reject_hand_outliers` always terminates at a clean frame
with a smaller index — the `before < 0` repair branch and the
"entire track is outliers" branch are unreachable. -/
theorem C10_frame_zero_never_outlier (thr : ℝ) (qs : List (Quat ℝ)) :
    0 ∉ outliersWithForwardCheck thr qs ∧
    ∀ idx ∈ outliersWithForwardCheck thr qs,
      ∃ b, findCleanBefore (outliersWithForwardCheck thr qs) (idx - 1) = some b ∧
        b ∉ outliersWithForwardCheck thr qs ∧ b < idx := by
  have h0 : 0 ∉ outliersWithForwardCheck thr qs := by
    intro h
    exact absurd h.1 (by omega)
  refine ⟨h0, ?_⟩
  intro idx hidx
  obtain ⟨b, hb, hbS, hbi⟩ :=
    findCleanBefore_of_zero_clean (outliersWithForwardCheck thr qs) h0 (idx - 1)
  have h1 : 1 ≤ idx := hidx.1
  exact ⟨b, hb, hbS, by omega⟩

/-- Membership of the spike frame in the outlier set of the concrete
three-frame witness track (a 180-degree single-frame spike). -/
theorem spike_witness_mem :
    1 ∈ outliersWithForwardCheck (radians 45)
      [⟨1, 0, 0, 0⟩, ⟨0, 1, 0, 0⟩, ⟨1, 0, 0, 0⟩] := by
  have hdot : dotQ (qAt [(⟨1, 0, 0, 0⟩ : Quat ℝ), ⟨0, 1, 0, 0⟩, ⟨1, 0, 0, 0⟩] 1)
      (qAt [(⟨1, 0, 0, 0⟩ : Quat ℝ), ⟨0, 1, 0, 0⟩, ⟨1, 0, 0, 0⟩] 0) = 0 := by
    norm_num [qAt, dotQ]
  have hdelta : deltaCode (qAt [(⟨1, 0, 0, 0⟩ : Quat ℝ), ⟨0, 1, 0, 0⟩, ⟨1, 0, 0, 0⟩] 1)
      (qAt [(⟨1, 0, 0, 0⟩ : Quat ℝ), ⟨0, 1, 0, 0⟩, ⟨1, 0, 0, 0⟩] 0) = Real.pi := by
    rw [deltaCode, hdot]
    rw [show |(0 : ℝ)| = 0 from abs_zero, clip01_of_mem (le_refl 0) zero_le_one,
      Real.arccos_zero]
    ring
  refine ⟨le_refl 1, by norm_num, ?_, ?_⟩
  · rw [hdelta, radians]
    have := Real.pi_pos
    linarith
  · by_cases hf : deltaCode (qAt [(⟨1, 0, 0, 0⟩ : Quat ℝ), ⟨0, 1, 0, 0⟩, ⟨1, 0, 0, 0⟩] 2)
        (qAt [(⟨1, 0, 0, 0⟩ : Quat ℝ), ⟨0, 1, 0, 0⟩, ⟨1, 0, 0, 0⟩] 0) < radians 45
    · exact Or.inl ⟨by norm_num, hf⟩
    · exact Or.inr (Or.inl ⟨by norm_num, hf⟩)

/-- Witness for C10 at the concrete spike track. -/
theorem C10_frame_zero_never_outlier_witness :
    1 ∈ outliersWithForwardCheck (radians 45)
      [⟨1, 0, 0, 0⟩, ⟨0, 1, 0, 0⟩, ⟨1, 0, 0, 0⟩] ∧
    (0 ∉ outliersWithForwardCheck (radians 45)
        [⟨1, 0, 0, 0⟩, ⟨0, 1, 0, 0⟩, ⟨1, 0, 0, 0⟩] ∧
      ∃ b, findCleanBefore
          (outliersWithForwardCheck (radians 45)
            [⟨1, 0, 0, 0⟩, ⟨0, 1, 0, 0⟩, ⟨1, 0, 0, 0⟩]) (1 - 1) = some b ∧
        b ∉ outliersWithForwardCheck (radians 45)
            [⟨1, 0, 0, 0⟩, ⟨0, 1, 0, 0⟩, ⟨1, 0, 0, 0⟩] ∧ b < 1) :=
  ⟨spike_witness_mem,
   ⟨(C10_frame_zero_never_outlier (radians 45)
       [⟨1, 0, 0, 0⟩, ⟨0, 1, 0, 0⟩, ⟨1, 0, 0, 0⟩]).1,
    (C10_frame_zero_never_outlier (radians 45)
       [⟨1, 0, 0, 0⟩, ⟨0, 1, 0, 0⟩, ⟨1, 0, 0, 0⟩]).2 1 spike_witness_mem⟩⟩

/-! ## Rotation Normalizer — `rotmats_to_quats`

Converts per-frame 3x3 rotation matrices to quaternions, applying the
camera-to-world fix `diag(1, -1, -1) @ R` to the root joint (index 0) only.
The scipy matrix-to-quaternion conversion (including its `[x,y,z,w]` to
`[w,x,y,z]` reorder done by the source) is an external collaborator, passed
in as a function.  The source contains no validation of the joint count or
of matrix orthonormality and no error path. -/

/-- A 3x3 matrix of per-joint rotation data. -/
structure Mat3 where
  m00 : ℝ
  m01 : ℝ
  m02 : ℝ
  m10 : ℝ
  m11 : ℝ
  m12 : ℝ
  m20 : ℝ
  m21 : ℝ
  m22 : ℝ

/-- The camera-to-world fix `_CAMERA_FIX @ R` with
`_CAMERA_FIX = diag(1, -1, -1)`: negates rows 1 and 2. -/
def camFix (m : Mat3) : Mat3 :=
  ⟨m.m00, m.m01, m.m02, -m.m10, -m.m11, -m.m12, -m.m20, -m.m21, -m.m22⟩

/-- The per-frame root fix `rotmats[0] = _CAMERA_FIX @ rotmats[0]`. -/
def fixRoot (ms : List Mat3) : List Mat3 :=
  match ms with
  | [] => []
  | m :: rest => camFix m :: rest

/-- The Rotation Normalizer `rotmats_to_quats`: camera fix on the root, then
elementwise conversion; the source has no error branch, so the result is
always `ok` (the `Except` return type makes the absence of an error path a
statement rather than a typing accident). -/
def rotmats_to_quats (m2q : Mat3 → Quat ℝ) (frames : List (List Mat3)) :
    Except String (List (List (Quat ℝ))) :=
  Except.ok (frames.map fun ms => (fixRoot ms).map m2q)

/-- The zero matrix: joint count 2 and orthonormality error 1, far beyond
any tolerance. -/
def zeroMat : Mat3 := ⟨0, 0, 0, 0, 0, 0, 0, 0, 0⟩

/-- C8 counterexample: a 2-joint frame of zero matrices (joint count matches
no skeleton, matrices nowhere near orthonormal beyond tolerance 1e-3) is
still converted without an error — the Normalizer silently produces
quaternions. -/
theorem C8_counterexample_no_validation :
    (2 : Nat) ≠ 24 ∧ (2 : Nat) ≠ 55 ∧
    [[zeroMat, zeroMat]].map List.length = [2] ∧
    |zeroMat.m00 * zeroMat.m00 + zeroMat.m01 * zeroMat.m01 +
        zeroMat.m02 * zeroMat.m02 - 1| > 1e-3 ∧
    rotmats_to_quats (fun _ => ⟨1, 0, 0, 0⟩) [[zeroMat, zeroMat]] =
      Except.ok [[⟨1, 0, 0, 0⟩, ⟨1, 0, 0, 0⟩]] := by
  refine ⟨by norm_num, by norm_num, rfl, ?_, rfl⟩
  rw [zeroMat]
  norm_num

/-- C8 amended: `rotmats_to_quats` performs no validation — for every
conversion function, every joint count and every matrix contents it returns
quaternions (one list per frame, camera fix applied to joint 0) and never an
error. -/
theorem C8_amended_normalizer_never_errors (m2q : Mat3 → Quat ℝ)
    (frames : List (List Mat3)) :
    ∃ qs, rotmats_to_quats m2q frames = Except.ok qs ∧
      qs.length = frames.length ∧
      ∀ i, i < frames.length →
        qs.getD i [] = (fixRoot (frames.getD i [])).map m2q := by
  refine ⟨frames.map fun ms => (fixRoot ms).map m2q, rfl, List.length_map _ _, ?_⟩
  intro i hi
  rw [List.getD_eq_getElem _ _ (by rwa [List.length_map]),
    List.getElem_map, List.getD_eq_getElem _ _ hi]

/-- Witness for C2 over `ℚ` at a single-joint track with one sign flip. -/
theorem C2_continuity_fixer_no_residual_sign_flips_witness :
    [Quat.mk (α := ℚ) 1 0 0 0, ⟨1, 0, 0, 0⟩] ∈
      fix_quaternion_signs [[Quat.mk (α := ℚ) 1 0 0 0, ⟨-1, 0, 0, 0⟩]] ∧
    List.Chain' (fun prev cur => 0 ≤ dotQ cur prev)
      [Quat.mk (α := ℚ) 1 0 0 0, ⟨1, 0, 0, 0⟩] := by
  have hmem : [Quat.mk (α := ℚ) 1 0 0 0, ⟨1, 0, 0, 0⟩] ∈
      fix_quaternion_signs [[Quat.mk (α := ℚ) 1 0 0 0, ⟨-1, 0, 0, 0⟩]] := by
    have heval : fix_quaternion_signs [[Quat.mk (α := ℚ) 1 0 0 0, ⟨-1, 0, 0, 0⟩]] =
        [[⟨1, 0, 0, 0⟩, ⟨1, 0, 0, 0⟩]] := by
      norm_num [fix_quaternion_signs, fixJoint, fixSignsFrom, dotQ, negQ]
    rw [heval]
    exact List.mem_singleton.mpr rfl
  exact ⟨hmem,
    C2_continuity_fixer_no_residual_sign_flips (α := ℚ)
      [[⟨1, 0, 0, 0⟩, ⟨-1, 0, 0, 0⟩]] [⟨1, 0, 0, 0⟩, ⟨1, 0, 0, 0⟩] hmem⟩
